import Mathlib

/-!
# Verification of the sine-benchmark additive secret-sharing protocol

Shallow embedding of `src/main.rs` (the single-file Rust implementation of the
peer-to-peer benchmarking protocol) and proofs about it.

Conventions of the embedding:
* Rust `i64` values are modelled as `Int`; the wrapping operations
  `wrapping_add` / `wrapping_sub` are modelled by reducing the exact result
  into the interval `[-2^63, 2^63)` (`wrap64`).
* Byte strings (`Vec<u8>`, `[u8; N]`) are `List Nat`; honest values keep every
  entry `< 256`.
* Rust `HashMap`s are association lists; `alInsert` mirrors
  `HashMap::insert` (overwrite the binding if the key is present, otherwise
  add it).  Iteration order of a `HashMap` is unspecified in Rust, so folds
  over maps are modelled as folds over the association list in list order.
* RSA encryption / signing / decryption and signature verification (the `rsa`
  crate) are external to the repository; they are abstracted into a `Crypto`
  record of functions.  `rand::random` is abstracted into a function from
  (recipient, key) to the drawn share.
* `std::process::exit(c)` is modelled by the outcome `Outcome.exit c`; a Rust
  panic (failed `assert_eq!`, `unwrap` on `None`, out-of-bounds slice) is
  modelled by `Outcome.panic`; `break` out of the event loop by
  `Outcome.brk`.
-/

/-! ## Wrapping 64-bit arithmetic (`i64::wrapping_add` / `wrapping_sub`) -/

/-- Reduce an exact integer into the `i64` range `[-2^63, 2^63)`; this is the
value an `i64` holds after wrapping arithmetic produced `x`. -/
def wrap64 (x : Int) : Int := (x + 2^63) % 2^64 - 2^63

/-- Rust `i64::wrapping_add` on exact integers. -/
def wadd (a b : Int) : Int := wrap64 (a + b)

/-- Rust `i64::wrapping_sub` on exact integers. -/
def wsub (a b : Int) : Int := wrap64 (a - b)

/-- Residues modulo `2^64`; wrapping `i64` arithmetic is exact in this ring. -/
abbrev M64 := ZMod (2^64)

instance : NeZero ((2:Nat)^64) := ⟨by norm_num⟩

theorem wrap64_cast (x : Int) : ((wrap64 x : Int) : M64) = (x : M64) := by
  have hdvd : (((2:Nat)^64 : Nat) : Int) ∣ (wrap64 x - x) := by
    refine ⟨-((x + 2^63) / 2^64), ?_⟩
    unfold wrap64
    push_cast
    omega
  have h0 : ((wrap64 x - x : Int) : M64) = 0 :=
    (ZMod.intCast_zmod_eq_zero_iff_dvd _ _).mpr hdvd
  rw [Int.cast_sub, sub_eq_zero] at h0
  exact h0

theorem wadd_cast (a b : Int) : ((wadd a b : Int) : M64) = (a : M64) + (b : M64) := by
  unfold wadd; rw [wrap64_cast]; push_cast; ring

theorem wsub_cast (a b : Int) : ((wsub a b : Int) : M64) = (a : M64) - (b : M64) := by
  unfold wsub; rw [wrap64_cast]; push_cast; ring

/-! ## The aggregation arithmetic (main.rs lines 287–357)

For one fixed input key, node `i` computes
`sent_sums = wrapping-sum of the shares it generated`, then
`partial = local_value.wrapping_sub(sent_sums)` and wrapping-adds every share
received from the other peers; the leader wrapping-adds all partial sums into
the published result.  Participants are indexed by `Fin n`; `s i p` is the
random share node `i` generated for peer `p` for this key, `v i` node `i`'s
scaled input for this key. -/

/-- The peers other than `i`, in roster order (`participants.keys()` with the
`*public_key == pub_key` entry skipped, main.rs lines 238–241). -/
def others (n : Nat) (i : Fin n) : List (Fin n) :=
  (List.finRange n).filter (fun q => q != i)

/-- main.rs lines 288–294: the wrapping sum of all shares node `i` sent out
for this key (fold of `wrapping_add` starting from the default `0`). -/
def sentTotal (n : Nat) (s : Fin n → Fin n → Int) (i : Fin n) : Int :=
  (others n i).foldl (fun acc p => wadd acc (s i p)) 0

/-- main.rs lines 295–339: node `i`'s partial sum for this key: the scaled
input `wrapping_sub` the sent total (line 298), then `wrapping_add` of each
share received from the other peers (line 333). -/
def partialSum (n : Nat) (v : Fin n → Int) (s : Fin n → Fin n → Int) (i : Fin n) : Int :=
  (others n i).foldl (fun acc q => wadd acc (s q i)) (wsub (v i) (sentTotal n s i))

/-- main.rs lines 351–357: the leader folds every participant's partial sum
for this key with `wrapping_add` starting from the default `0`. -/
def leaderResult (n : Nat) (v : Fin n → Int) (s : Fin n → Fin n → Int) : Int :=
  (List.finRange n).foldl (fun acc i => wadd acc (partialSum n v s i)) 0

theorem foldl_wadd_cast {α : Type} (f : α → Int) (l : List α) : ∀ (a : Int),
    ((l.foldl (fun acc x => wadd acc (f x)) a : Int) : M64)
      = (a : M64) + (l.map (fun x => ((f x : Int) : M64))).sum := by
  induction l with
  | nil => intro a; simp
  | cons x xs ih =>
    intro a
    simp only [List.foldl_cons, List.map_cons, List.sum_cons, ih, wadd_cast]
    ring

theorem sum_map_filter {α β : Type} [AddCommMonoid β] (pb : α → Bool) (g : α → β) :
    ∀ l : List α, ((l.filter pb).map g).sum
      = (l.map (fun x => if pb x = true then g x else 0)).sum := by
  intro l
  induction l with
  | nil => rfl
  | cons x xs ih =>
    cases h : pb x <;> simp [List.filter_cons, h, ih]

theorem others_sum_cast {n : Nat} (g : Fin n → M64) (i : Fin n) :
    ((others n i).map g).sum = ∑ q, if q ≠ i then g q else 0 := by
  unfold others
  rw [sum_map_filter, ← Fin.sum_univ_def]
  simp only [bne_iff_ne]

theorem partialSum_cast {n : Nat} (v : Fin n → Int) (s : Fin n → Fin n → Int) (i : Fin n) :
    ((partialSum n v s i : Int) : M64)
      = ((v i : Int) : M64)
        + ((∑ q, if q ≠ i then ((s q i : Int) : M64) else 0)
          - (∑ p, if p ≠ i then ((s i p : Int) : M64) else 0)) := by
  unfold partialSum sentTotal
  rw [foldl_wadd_cast, wsub_cast, foldl_wadd_cast, others_sum_cast, others_sum_cast]
  ring

theorem leaderResult_cast {n : Nat} (v : Fin n → Int) (s : Fin n → Fin n → Int) :
    ((leaderResult n v s : Int) : M64) = ∑ i, ((v i : Int) : M64) := by
  unfold leaderResult
  rw [foldl_wadd_cast, ← Fin.sum_univ_def]
  simp only [partialSum_cast]
  rw [Finset.sum_add_distrib, Finset.sum_sub_distrib]
  have hswap : (∑ i, ∑ q, if q ≠ i then ((s q i : Int) : M64) else 0)
      = ∑ i, ∑ p, if p ≠ i then ((s i p : Int) : M64) else 0 := by
    rw [Finset.sum_comm]
    refine Finset.sum_congr rfl (fun a _ => ?_)
    refine Finset.sum_congr rfl (fun b _ => ?_)
    exact if_congr ne_comm rfl rfl
  rw [hswap]
  simp

theorem emod_of_cast_eq {a b : Int} (h : (a : M64) = (b : M64)) :
    a % 2^64 = b % 2^64 := by
  have h2 := (ZMod.intCast_eq_intCast_iff' a b (2^64)).mp h
  push_cast at h2
  exact h2

/-! ## Association lists (Rust `HashMap` behaviour) -/

/-- Rust `HashMap::insert`: overwrite the binding if the key is present, otherwise
add a new entry. -/
def alInsert {κ ν : Type} [DecidableEq κ] (k : κ) (v : ν) :
    List (κ × ν) → List (κ × ν)
  | [] => [(k, v)]
  | (k', v') :: rest => if k' = k then (k, v) :: rest else (k', v') :: alInsert k v rest

/-- Rust `HashMap::get`. -/
def alLookup {κ ν : Type} [DecidableEq κ] (k : κ) : List (κ × ν) → Option ν
  | [] => none
  | (k', v') :: rest => if k' = k then some v' else alLookup k rest

/-- Rust `HashMap::contains_key`. -/
def alContains {κ ν : Type} [DecidableEq κ] (k : κ) (l : List (κ × ν)) : Bool :=
  (alLookup k l).isSome

theorem alLookup_insert {κ ν : Type} [DecidableEq κ] (k : κ) (v : ν) :
    ∀ l : List (κ × ν), alLookup k (alInsert k v l) = some v := by
  intro l
  induction l with
  | nil => simp [alInsert, alLookup]
  | cons kv rest ih =>
    by_cases h : kv.1 = k <;> simp [alInsert, alLookup, h, ih]

/-! ## Byte-level codec (main.rs lines 248–258 and 324–331)

Bytes are `Nat`s; an honest byte is `< 256`. -/

/-- Total number of bytes of one plaintext chunk (`MAX_MSG_SIZE_BYTES`). -/
def MAX_MSG_SIZE_BYTES : Nat := 245

/-- Rust `i64::to_be_bytes`: the eight big-endian bytes of the two's-complement
representation of `x`. -/
def toBe64 (x : Int) : List Nat :=
  let u := (x % 2^64).toNat
  [u / 2^56 % 256, u / 2^48 % 256, u / 2^40 % 256, u / 2^32 % 256,
   u / 2^24 % 256, u / 2^16 % 256, u / 2^8 % 256, u % 256]

/-- Rust `i64::from_be_bytes`: recombine eight big-endian bytes and reinterpret the
unsigned value as two's-complement signed. -/
def fromBe64 (bs : List Nat) : Int :=
  let u : Nat := bs.foldl (fun acc b => acc * 256 + b) 0
  if u < 2^63 then (u : Int) else (u : Int) - 2^64

/-- The cast `as usize` applied to an `i64` (64-bit target): reinterpret the bits as an
unsigned 64-bit integer. -/
def usize64 (x : Int) : Nat := (x % 2^64).toNat

theorem toBe64_length (x : Int) : (toBe64 x).length = 8 := rfl

theorem fromBe64_toBe64 (x : Int) (hlo : -2^63 ≤ x) (hhi : x < 2^63) :
    fromBe64 (toBe64 x) = x := by
  unfold toBe64 fromBe64
  simp only [List.foldl_cons, List.foldl_nil]
  omega

/-- UTF-8 validity of a byte sequence (RFC 3629, the check done by Rust's
`String::from_utf8`). -/
def validUtf8 : List Nat → Bool
  | [] => true
  | b :: rest =>
    if b < 0x80 then validUtf8 rest
    else if 0xC2 ≤ b ∧ b ≤ 0xDF then
      match rest with
      | c1 :: r => decide (0x80 ≤ c1 ∧ c1 ≤ 0xBF) && validUtf8 r
      | _ => false
    else if b = 0xE0 then
      match rest with
      | c1 :: c2 :: r =>
        decide (0xA0 ≤ c1 ∧ c1 ≤ 0xBF) && decide (0x80 ≤ c2 ∧ c2 ≤ 0xBF) && validUtf8 r
      | _ => false
    else if (0xE1 ≤ b ∧ b ≤ 0xEC) ∨ b = 0xEE ∨ b = 0xEF then
      match rest with
      | c1 :: c2 :: r =>
        decide (0x80 ≤ c1 ∧ c1 ≤ 0xBF) && decide (0x80 ≤ c2 ∧ c2 ≤ 0xBF) && validUtf8 r
      | _ => false
    else if b = 0xED then
      match rest with
      | c1 :: c2 :: r =>
        decide (0x80 ≤ c1 ∧ c1 ≤ 0x9F) && decide (0x80 ≤ c2 ∧ c2 ≤ 0xBF) && validUtf8 r
      | _ => false
    else if b = 0xF0 then
      match rest with
      | c1 :: c2 :: c3 :: r =>
        decide (0x90 ≤ c1 ∧ c1 ≤ 0xBF) && decide (0x80 ≤ c2 ∧ c2 ≤ 0xBF) &&
          decide (0x80 ≤ c3 ∧ c3 ≤ 0xBF) && validUtf8 r
      | _ => false
    else if 0xF1 ≤ b ∧ b ≤ 0xF3 then
      match rest with
      | c1 :: c2 :: c3 :: r =>
        decide (0x80 ≤ c1 ∧ c1 ≤ 0xBF) && decide (0x80 ≤ c2 ∧ c2 ≤ 0xBF) &&
          decide (0x80 ≤ c3 ∧ c3 ≤ 0xBF) && validUtf8 r
      | _ => false
    else if b = 0xF4 then
      match rest with
      | c1 :: c2 :: c3 :: r =>
        decide (0x80 ≤ c1 ∧ c1 ≤ 0x8F) && decide (0x80 ≤ c2 ∧ c2 ≤ 0xBF) &&
          decide (0x80 ≤ c3 ∧ c3 ≤ 0xBF) && validUtf8 r
      | _ => false
    else false

/-! ## Protocol messages, phases, process outcomes -/

/-- How a step of the process ends: keep looping, `std::process::exit(code)`,
a Rust panic (failed `assert_eq!` / `unwrap` / out-of-range slice), or
`break` out of the event loop. -/
inductive Outcome where
  | ok : Outcome
  | exit : Nat → Outcome
  | panic : Outcome
  | brk : Outcome
deriving DecidableEq, Repr

/-- The three lifecycle phases (main.rs lines 118–123). -/
inductive Phase where
  | WaitingForParticipants : Phase
  | ConfirmingParticipants : Phase
  | SendingShares : Phase
deriving DecidableEq, Repr

/-- The broadcast message (main.rs lines 97–110).  Public keys and aliases are
`String`s; input keys are UTF-8 byte lists; `PeerId`s are `Nat`s.
`Share from to blob` mirrors `Msg::Share { from, to, share }`. -/
inductive Msg where
  | Join : String → String → Msg
  | Quit : Nat → String → Msg
  | Participants : List (String × String × Nat) → Msg
  | LobbyNowClosed : Msg
  | Share : String → String → List Nat → Msg
  | Sum : String → List (List Nat × Int) → Msg
  | Result : List (List Nat × Int) → Msg
deriving DecidableEq, Repr

/-- The `upnp::Event` cases as consumed by the event loop (main.rs lines 430–462). -/
inductive UpnpEv where
  | NewExternalAddr : String → UpnpEv
  | GatewayNotFound : UpnpEv
  | NonRoutableGateway : UpnpEv
  | OtherUpnp : UpnpEv
deriving DecidableEq, Repr

/-- The events the `select!` hands to the dispatch (main.rs lines 90–95). -/
inductive Event where
  | Upnp : UpnpEv → Event
  | StdIn : String → Event
  | Msg : Msg → Nat → Event
  | ConnectionClosed : Nat → Event
deriving DecidableEq, Repr

/-- The abstracted RSA operations of the `rsa` crate (external to the
repository).  `encrypt pk chunk` is PKCS#1v1.5 encryption of a chunk under a
recipient's public key (with the process rng absorbed; `none` models an
encryption error, which also covers `RsaPublicKey::try_from` failing on the
recipient key).  `verify sender cipher sig = false` models any of: the
sender key failing to parse, `Signature::try_from` failing, or signature
verification failing — each aborts identically in the source. -/
structure Crypto where
  encrypt : String → List Nat → Option (List Nat)
  sign : List Nat → List Nat
  verify : String → List Nat → List Nat → Bool
  decrypt : List Nat → Option (List Nat)

/-- The RSA-2048 size contract: ciphertexts and signatures are exactly
`KEY_BITS / 8 = 256` bytes and encryption of a 245-byte chunk succeeds. -/
def GoodCrypto (c : Crypto) : Prop :=
  (∀ pk ch, ∃ e, c.encrypt pk ch = some e ∧ e.length = 256) ∧
    (∀ m, (c.sign m).length = 256)

/-- The mutable state owned by the event loop (main.rs lines 213–219), plus
the two swarm peer counts the loop reads (`gossipsub.all_peers().count()` and
`connected_peers().count()`); `input` holds the local input map with values
already scaled to `i64` (`(x * 100.0).round() as i64`; the floating-point
scaling itself is kept abstract). -/
structure Node where
  isLeader : Bool
  pubKey : String
  name : String
  peerId : Nat
  phase : Phase
  participants : List (String × String × Nat)
  input : List (List Nat × Int)
  sentShares : List (String × List (List Nat × Int))
  receivedShares : List (String × List Nat)
  sums : List (String × List (List Nat × Int))
  result : Option (List (List Nat × Int))
  allPeersCount : Nat
  connectedPeersCount : Nat
deriving DecidableEq, Repr

/-- Result of one piece of the loop body: the updated state, the broadcasts
published (in order), and how the step ended. -/
structure StepRes where
  node : Node
  sent : List Msg
  outcome : Outcome
deriving DecidableEq, Repr

/-! ## Share emission (Step A, main.rs lines 237–286) -/

/-- main.rs lines 248–258: the 245-byte plaintext chunk for one key: key
length as big-endian `i64`, then the share as big-endian `i64`, then the key
bytes, then zero padding. -/
def mkChunk (key : List Nat) (share : Int) : List Nat :=
  toBe64 (key.length : Int) ++ toBe64 share ++ key ++
    List.replicate (MAX_MSG_SIZE_BYTES - 16 - key.length) 0

/-- main.rs lines 243–273: for each input key draw a random share, reject
keys longer than `245 - 16 = 229` bytes (`exit 1`), build the chunk, encrypt
it for `pk`, sign the ciphertext and append `ciphertext ++ signature` to the
blob.  The two `assert_eq!`s on the ciphertext and signature lengths are the
`panic` branches.  (The source inserts into `shares` before the length check;
the map is discarded on exit, so the insert is dropped here.)  Returns the
`shares` map recorded in `sent_shares` and the assembled blob. -/
def buildBlob (c : Crypto) (rnd : String → List Nat → Int) (pk : String) :
    List (List Nat × Int) → Except Outcome (List (List Nat × Int) × List Nat)
  | [] => .ok ([], [])
  | (key, _) :: rest =>
    let share := rnd pk key
    if MAX_MSG_SIZE_BYTES - 16 < key.length then .error (.exit 1)
    else
      match c.encrypt pk (mkChunk key share) with
      | none => .error (.exit 1)
      | some enc =>
        if enc.length ≠ 256 then .error .panic
        else
          let sig := c.sign enc
          if sig.length ≠ 256 then .error .panic
          else
            match buildBlob c rnd pk rest with
            | .error o => .error o
            | .ok (shares, blob) => .ok (alInsert key share shares, enc ++ sig ++ blob)

/-- main.rs lines 238–285: one `Share` message per participant other than
self, in roster order. -/
def emitAll (c : Crypto) (rnd : String → List Nat → Int) (self : String)
    (input : List (List Nat × Int)) :
    List (String × String × Nat) →
      Except Outcome (List (String × List (List Nat × Int)) × List Msg)
  | [] => .ok ([], [])
  | (pk, _, _) :: rest =>
    if pk = self then emitAll c rnd self input rest
    else
      match buildBlob c rnd pk input with
      | .error o => .error o
      | .ok (shares, blob) =>
        match emitAll c rnd self input rest with
        | .error o => .error o
        | .ok (sent, msgs) =>
          .ok (alInsert pk shares sent, Msg.Share self pk blob :: msgs)

/-! ## Receiving side of Step C (main.rs lines 301–339) -/

/-- main.rs lines 324–331: parse a decrypted chunk.  `chunk[..8]` /
`chunk[8..16]` panic when the chunk is too short (for `chunk.len() < 16` the
usize subtraction `chunk.len() - 16` underflows first, also an abort); the
`as usize` cast reinterprets a negative key-length field as a huge unsigned
value, so the range check `key_len > chunk.len() - 16` exits; invalid UTF-8
makes `String::from_utf8` fail, which `?` turns into `exit 1`. -/
def parseChunk (chunk : List Nat) : Except Outcome (List Nat × Int) :=
  if chunk.length < 8 then .error .panic
  else
    let keyLen := usize64 (fromBe64 (chunk.take 8))
    if chunk.length < 16 then .error .panic
    else if chunk.length - 16 < keyLen then .error (.exit 1)
    else
      let share := fromBe64 ((chunk.drop 8).take 8)
      let keyBytes := (chunk.drop 16).take keyLen
      if validUtf8 keyBytes = true then .ok (keyBytes, share)
      else .error (.exit 1)

/-- main.rs lines 306–338: the per-record loop.  Each iteration takes the
next 512 bytes, verifies the signature over the first 256 (abort on failure),
decrypts them (abort on failure), parses the chunk and wrapping-adds the
share into `public_sums[key]`, aborting when the key is not a local input
key.  The in-loop bounds check `enc_msg.len() < i + 512` is the
`blob.length < 512` branch. -/
def processRecordsGo (c : Crypto) (sender : String) :
    Nat → List (List Nat × Int) → List Nat → Except Outcome (List (List Nat × Int))
  | 0, ps, _ => .ok ps
  | iters+1, ps, blob =>
    if blob.length < 512 then .error (.exit 1)
    else
      let cipher := blob.take 256
      let sig := (blob.drop 256).take 256
      if c.verify sender cipher sig = false then .error (.exit 1)
      else
        match c.decrypt cipher with
        | none => .error (.exit 1)
        | some chunk =>
          match parseChunk chunk with
          | .error o => .error o
          | .ok (keyBytes, share) =>
            match alLookup keyBytes ps with
            | none => .error (.exit 1)
            | some v =>
              processRecordsGo c sender iters (alInsert keyBytes (wadd v share) ps) (blob.drop 512)

/-- The loop `for i in (0..enc_msg.len()).step_by(512)` runs
`⌈blob.length / 512⌉` times. -/
def processRecords (c : Crypto) (sender : String) (ps : List (List Nat × Int))
    (blob : List Nat) : Except Outcome (List (List Nat × Int)) :=
  processRecordsGo c sender ((blob.length + 511) / 512) ps blob

/-- main.rs lines 301–339 for one received blob: the
`assert_eq!(enc_msg.len() % 512, 0)` (a panic on failure) and then the record
loop.  (`RsaPublicKey::try_from(sender)` failing is absorbed into
`c.verify` returning `false`.) -/
def processBlob (c : Crypto) (sender : String) (ps : List (List Nat × Int))
    (blob : List Nat) : Except Outcome (List (List Nat × Int)) :=
  if blob.length % 512 ≠ 0 then .error .panic
  else processRecords c sender ps blob

/-- main.rs line 301: fold over all received blobs in table order. -/
def processAll (c : Crypto) (ps : List (List Nat × Int)) :
    List (String × List Nat) → Except Outcome (List (List Nat × Int))
  | [] => .ok ps
  | (sender, blob) :: rest =>
    match processBlob c sender ps blob with
    | .error o => .error o
    | .ok ps' => processAll c ps' rest

/-! ## The SendingShares housekeeping (main.rs lines 230–368) -/

/-- main.rs lines 288–294: per-key wrapping totals of all sent shares
(`sent_sums`), folding over the `sent_shares` table in table order. -/
def sentSums (sent : List (String × List (List Nat × Int))) : List (List Nat × Int) :=
  sent.foldl
    (fun acc ps =>
      ps.2.foldl
        (fun a ks => alInsert ks.1 (wadd ((alLookup ks.1 a).getD 0) ks.2) a) acc)
    []

/-- main.rs lines 295–300: `public_sums`: for each key of `sent_sums`, look
the scaled secret up in the input (the `unwrap` panics when absent) and
`wrapping_sub` the sent total. -/
def maskedSums (input : List (List Nat × Int)) (acc : List (List Nat × Int)) :
    List (List Nat × Int) → Except Outcome (List (List Nat × Int))
  | [] => .ok acc
  | (key, ssum) :: rest =>
    match alLookup key input with
    | none => .error .panic
    | some secret => maskedSums input (alInsert key (wsub secret ssum) acc) rest

/-- Step A (main.rs lines 237–286): generate and broadcast all share blobs;
run only when `sent_shares` is empty. -/
def stepA (c : Crypto) (rnd : String → List Nat → Int) (n : Node) : StepRes :=
  match emitAll c rnd n.pubKey n.input n.participants with
  | .error o => ⟨n, [], o⟩
  | .ok (sent, msgs) => ⟨{ n with sentShares := sent }, msgs, .ok⟩

/-- Step C (main.rs lines 287–349): compute the masked sums, fold in every
received share, broadcast `Sum`; the leader additionally records its own
entry in `sums` (line 342–344) before publishing. -/
def stepC (c : Crypto) (n : Node) : StepRes :=
  match maskedSums n.input [] (sentSums n.sentShares) with
  | .error o => ⟨n, [], o⟩
  | .ok ps0 =>
    match processAll c ps0 n.receivedShares with
    | .error o => ⟨n, [], o⟩
    | .ok ps =>
      let n' := if n.isLeader then { n with sums := alInsert n.pubKey ps n.sums } else n
      ⟨n', [Msg.Sum n.pubKey ps], .ok⟩

/-- main.rs lines 351–357: wrapping totals of all partial sums.  (The source
collects them into a `BTreeMap` ordered by key; the ordering is not modelled.) -/
def resultTotals (sums : List (String × List (List Nat × Int))) : List (List Nat × Int) :=
  sums.foldl
    (fun acc ps =>
      ps.2.foldl
        (fun a ks => alInsert ks.1 (wadd ((alLookup ks.1 a).getD 0) ks.2) a) acc)
    []

/-- Step D (main.rs lines 350–367): the leader publishes `Result` and — only
when `result` is still `None` — prints and records it. -/
def stepD (n : Node) : StepRes :=
  let results := resultTotals n.sums
  let n' := if n.result.isNone then { n with result := some results } else n
  ⟨n', [Msg.Result results], .ok⟩

/-- The top of every event-loop iteration (main.rs lines 221–368): the
`ConfirmingParticipants` and `SendingShares` peer-count aborts, then in
`SendingShares` Step A (guarded by `sent_shares.is_empty()`), Step C (guarded
by `received_shares.len() == participants.len() - 1`) and Step D (guarded by
`is_leader && sums.len() == participants.len()`), in that order. -/
def housekeeping (c : Crypto) (rnd : String → List Nat → Int) (n : Node) : StepRes :=
  match n.phase with
  | .WaitingForParticipants => ⟨n, [], .ok⟩
  | .ConfirmingParticipants =>
    if n.allPeersCount = 0 then ⟨n, [], .exit 1⟩ else ⟨n, [], .ok⟩
  | .SendingShares =>
    if n.allPeersCount = 0 then ⟨n, [], .exit 1⟩
    else
      let r1 := if n.sentShares.isEmpty then stepA c rnd n else ⟨n, [], .ok⟩
      match r1.outcome with
      | .ok =>
        let r2 :=
          if r1.node.receivedShares.length = r1.node.participants.length - 1
          then stepC c r1.node else ⟨r1.node, [], .ok⟩
        match r2.outcome with
        | .ok =>
          let r3 :=
            if r2.node.isLeader && r2.node.sums.length == r2.node.participants.length
            then stepD r2.node else ⟨r2.node, [], .ok⟩
          ⟨r3.node, r1.sent ++ r2.sent ++ r3.sent, r3.outcome⟩
        | o => ⟨r2.node, r1.sent ++ r2.sent, o⟩
      | o => ⟨r1.node, r1.sent, o⟩

/-! ## Event selection and dispatch (main.rs lines 369–580) -/

/-- main.rs lines 384–388 (Step B): while turning a gossipsub delivery into
an `Event`, a `Share` addressed to the local key from a known participant is
retained in `received_shares` — in every phase, before the dispatch below. -/
def retainShare (n : Node) (m : Msg) : Node :=
  match m with
  | .Share mfrom mto mshare =>
    if mto = n.pubKey ∧ alContains mfrom n.participants = true then
      { n with receivedShares := alInsert mfrom mshare n.receivedShares }
    else n
  | _ => n

/-- The dispatch `match (phase, ev)` (main.rs lines 402–580), arm for arm in
source order.  The `if is_leader` guard on the first arm falls through to the
catch-all `(_, Event::StdIn(_))` arm when the node is a follower. -/
def handleEvent (n : Node) (ev : Event) : StepRes :=
  match n.phase, ev with
  | .WaitingForParticipants, .StdIn _ =>
    if n.isLeader then
      if n.participants.length < 3 then ⟨n, [], .ok⟩
      else ⟨{ n with phase := .SendingShares }, [Msg.LobbyNowClosed], .ok⟩
    else ⟨n, [], .ok⟩
  | .ConfirmingParticipants, .StdIn line =>
    if line.trim = "" ∨ (line.trim.toLower = "y") then
      ⟨{ n with phase := .SendingShares }, [], .ok⟩
    else if line.trim.toLower = "n" then ⟨n, [], .exit 0⟩
    else ⟨n, [], .ok⟩
  | _, .StdIn _ => ⟨n, [], .ok⟩
  | .WaitingForParticipants, .Upnp (.NewExternalAddr _) =>
    ⟨{ n with participants := alInsert n.pubKey (n.name, n.peerId) n.participants },
      if n.isLeader then [] else [Msg.Join n.pubKey n.name], .ok⟩
  | _, .Upnp .GatewayNotFound => ⟨n, [], .brk⟩
  | _, .Upnp .NonRoutableGateway => ⟨n, [], .brk⟩
  | _, .Upnp _ => ⟨n, [], .ok⟩
  | .WaitingForParticipants, .ConnectionClosed pid =>
    if n.result.isNone then
      match n.participants.find? (fun p => p.2.2 == pid) with
      | none => ⟨n, [], .ok⟩
      | some (_, disconnected, _) =>
        if n.connectedPeersCount = 0 && n.isLeader then
          ⟨{ n with participants := n.participants.filter (fun p => p.2.2 != pid) }, [], .ok⟩
        else if n.isLeader then
          let parts := n.participants.filter (fun p => p.2.2 != pid)
          ⟨{ n with participants := parts },
            [Msg.Quit pid disconnected, Msg.Participants parts], .ok⟩
        else ⟨n, [], .ok⟩
    else ⟨n, [], .exit 0⟩
  | .WaitingForParticipants, .Msg m pid =>
    match m with
    | .Join pk pname =>
      if n.isLeader then
        let parts := alInsert pk (pname, pid) n.participants
        ⟨{ n with participants := parts }, [Msg.Participants parts], .ok⟩
      else ⟨n, [], .ok⟩
    | .Quit _ _ => ⟨n, [], .ok⟩
    | .Participants all => ⟨{ n with participants := all }, [], .ok⟩
    | .LobbyNowClosed =>
      if n.isLeader then ⟨n, [], .ok⟩
      else if n.participants.length < 3 then ⟨n, [], .exit 1⟩
      else ⟨{ n with phase := .ConfirmingParticipants }, [], .ok⟩
    | .Share _ _ _ => ⟨n, [], .ok⟩
    | .Sum _ _ => ⟨n, [], .exit 1⟩
    | .Result _ => ⟨n, [], .exit 1⟩
  | .SendingShares, .Msg m _ =>
    match m with
    | .Join _ _ | .Participants _ | .LobbyNowClosed => ⟨n, [], .ok⟩
    | .Quit _ _ | .Share _ _ _ => ⟨n, [], .ok⟩
    | .Sum pk s =>
      if n.isLeader then ⟨{ n with sums := alInsert pk s n.sums }, [], .ok⟩
      else ⟨n, [], .ok⟩
    | .Result _ => ⟨n, [], .exit 0⟩
  | .SendingShares, .ConnectionClosed _ =>
    -- every branch of this arm (leader with or without a matching
    -- participant, follower) prints and exits 1 when no result is recorded
    if n.result.isSome then ⟨n, [], .ok⟩
    else ⟨n, [], .exit 1⟩
  | .ConfirmingParticipants, _ => ⟨n, [], .ok⟩

/-- One delivered event: the Step B retention hook for broadcast messages,
then the dispatch. -/
def stepEvent (n : Node) (ev : Event) : StepRes :=
  match ev with
  | .Msg m pid => handleEvent (retainShare n m) (.Msg m pid)
  | e => handleEvent n e

/-! ## Concrete instantiations used to evaluate the model -/

/-- A concrete, trivially invertible instantiation of the crypto interface:
"encryption" pads the chunk to 256 bytes, "decryption" takes the first 245
bytes back, "signatures" are 256 zero bytes and always verify. -/
def toyCrypto : Crypto where
  encrypt := fun _ ch => some ((ch ++ List.replicate 256 0).take 256)
  sign := fun _ => List.replicate 256 0
  verify := fun _ _ _ => true
  decrypt := fun cb => some (cb.take 245)

/-- A fixed randomness source. -/
def toyRnd : String → List Nat → Int := fun _ _ => 0

theorem toyCrypto_good : GoodCrypto toyCrypto := by
  constructor
  · intro pk ch
    refine ⟨(ch ++ List.replicate 256 0).take 256, ?_, ?_⟩
    · rfl
    · simp only [List.length_take, List.length_append, List.length_replicate]
      omega
  · intro m
    simp only [toyCrypto, List.length_replicate]

/-- The single-byte input key `"k"`. -/
def kb : List Nat := [107]

/-- A 512-byte share record for key `kb` and share `11` under `toyCrypto`. -/
def blobA : List Nat := (mkChunk kb 11 ++ List.replicate 11 0) ++ List.replicate 256 0

/-- A 512-byte share record for key `kb` and share `13` under `toyCrypto`. -/
def blobB : List Nat := (mkChunk kb 13 ++ List.replicate 11 0) ++ List.replicate 256 0

/-- A follower in `SendingShares` that has already emitted its shares and
holds a full `received_shares` table: the Step C threshold
`received_shares.len() == participants.len() - 1` holds. -/
def nodeC4 : Node where
  isLeader := false
  pubKey := "me"
  name := "me"
  peerId := 0
  phase := .SendingShares
  participants := [("me", "me", 0), ("a", "a", 1), ("b", "b", 2)]
  input := [(kb, 100)]
  sentShares := [("a", [(kb, 5)]), ("b", [(kb, 7)])]
  receivedShares := [("a", blobA), ("b", blobB)]
  sums := []
  result := none
  allPeersCount := 2
  connectedPeersCount := 2

/-- A leader still in the lobby with only itself in the roster. -/
def nodeWaiting : Node where
  isLeader := true
  pubKey := "ldr"
  name := "ldr"
  peerId := 0
  phase := .WaitingForParticipants
  participants := [("ldr", "ldr", 0)]
  input := [(kb, 1)]
  sentShares := []
  receivedShares := []
  sums := []
  result := none
  allPeersCount := 1
  connectedPeersCount := 1

/-- A follower still in the lobby with a two-entry roster. -/
def nodeFollower : Node :=
  { nodeWaiting with
      isLeader := false
      pubKey := "flw"
      name := "flw"
      participants := [("ldr", "ldr", 0), ("flw", "flw", 1)] }

/-! ## Claim C1 — correctness of the aggregation -/

/-- The wrapping sum of the shares node `i` received for this key (the
accumulated `wrapping_add`s of main.rs line 333). -/
def recvTotal (n : Nat) (s : Fin n → Fin n → Int) (i : Fin n) : Int :=
  (others n i).foldl (fun acc q => wadd acc (s q i)) 0

theorem sentTotal_cast {n : Nat} (s : Fin n → Fin n → Int) (i : Fin n) :
    ((sentTotal n s i : Int) : M64)
      = ∑ p, if p ≠ i then ((s i p : Int) : M64) else 0 := by
  unfold sentTotal
  rw [foldl_wadd_cast, others_sum_cast]
  simp

theorem recvTotal_cast {n : Nat} (s : Fin n → Fin n → Int) (i : Fin n) :
    ((recvTotal n s i : Int) : M64)
      = ∑ q, if q ≠ i then ((s q i : Int) : M64) else 0 := by
  unfold recvTotal
  rw [foldl_wadd_cast, others_sum_cast]
  simp

/-- C1. For every run with `n ≥ 3` honest participants that agree on a
key set and have scaled `i64` inputs `v i k`, and every key `k`: each node's
partial sum equals its scaled input minus the wrapping sum of the shares it
sent plus the wrapping sum of the shares it received (second conjunct, modulo
`2^64`), and the leader's published result — the wrapping sum of all
participants' partial sums — equals the sum of the scaled inputs modulo
`2^64`: all random shares cancel (first conjunct). -/
theorem shares_cancel_mod64 (n : Nat) (_hn : 3 ≤ n)
    (v : Fin n → String → Int) (s : Fin n → Fin n → String → Int) (k : String) :
    leaderResult n (fun i => v i k) (fun i p => s i p k) % 2^64
        = (∑ i, v i k) % 2^64
    ∧ ∀ i : Fin n,
        partialSum n (fun j => v j k) (fun a b => s a b k) i % 2^64
          = (v i k - sentTotal n (fun a b => s a b k) i
              + recvTotal n (fun a b => s a b k) i) % 2^64 := by
  constructor
  · apply emod_of_cast_eq
    rw [leaderResult_cast]
    push_cast
    simp
  · intro i
    apply emod_of_cast_eq
    rw [partialSum_cast]
    push_cast [sentTotal_cast, recvTotal_cast]
    ring

/-- Witness for C1: a three-participant run with concrete inputs and shares. -/
theorem shares_cancel_mod64_witness :
    3 ≤ 3
    ∧ leaderResult 3 (fun i => ((i : Nat) : Int))
          (fun i p => ((i : Nat) : Int) * 10 + ((p : Nat) : Int)) % 2^64
        = (∑ i : Fin 3, ((i : Nat) : Int)) % 2^64 :=
  ⟨by norm_num,
   (shares_cancel_mod64 3 (by norm_num) (fun i _ => ((i : Nat) : Int))
      (fun i p _ => ((i : Nat) : Int) * 10 + ((p : Nat) : Int)) "k").1⟩

/-! ## Claim C2 — Share messages do not depend on the input values -/

theorem buildBlob_keys_only (c : Crypto) (rnd : String → List Nat → Int) (pk : String) :
    ∀ (i1 i2 : List (List Nat × Int)), i1.map Prod.fst = i2.map Prod.fst →
      buildBlob c rnd pk i1 = buildBlob c rnd pk i2 := by
  intro i1
  induction i1 with
  | nil =>
    intro i2 h
    cases i2 with
    | nil => rfl
    | cons kv rest => simp at h
  | cons kv rest ih =>
    intro i2 h
    cases i2 with
    | nil => simp at h
    | cons kv2 rest2 =>
      obtain ⟨k1, v1⟩ := kv
      obtain ⟨k2, v2⟩ := kv2
      simp only [List.map_cons, List.cons.injEq] at h
      obtain ⟨h1, h2⟩ := h
      subst h1
      simp only [buildBlob, ih rest2 h2]

theorem emitAll_keys_only (c : Crypto) (rnd : String → List Nat → Int) (self : String)
    (i1 i2 : List (List Nat × Int)) (h : i1.map Prod.fst = i2.map Prod.fst) :
    ∀ parts, emitAll c rnd self i1 parts = emitAll c rnd self i2 parts := by
  intro parts
  induction parts with
  | nil => rfl
  | cons p rest ih =>
    obtain ⟨pk, nm, pid⟩ := p
    simp only [emitAll, buildBlob_keys_only c rnd pk i1 i2 h, ih]

/-- C2. The bytes of the emitted `Share` messages are independent of the
sender's input values: two runs with identical randomness (`rnd`), identical
crypto (`c`, i.e. identical key material), identical roster and identical key
sets but different input values produce exactly the same `Share` messages
(and the same `sent_shares` table): each plaintext chunk is built from the
key length, the random share, the key bytes and zero padding only. -/
theorem share_messages_value_independent (c : Crypto) (rnd : String → List Nat → Int)
    (self : String) (parts : List (String × String × Nat))
    (input1 input2 : List (List Nat × Int))
    (h : input1.map Prod.fst = input2.map Prod.fst) :
    emitAll c rnd self input1 parts = emitAll c rnd self input2 parts :=
  emitAll_keys_only c rnd self input1 input2 h parts

/-- Witness for C2: two single-key inputs with different values. -/
theorem share_messages_value_independent_witness :
    ([(kb, (1:Int))].map Prod.fst = [(kb, (2:Int))].map Prod.fst)
    ∧ emitAll toyCrypto toyRnd "me" [(kb, 1)] [("me", "me", 0), ("a", "a", 1)]
        = emitAll toyCrypto toyRnd "me" [(kb, 2)] [("me", "me", 0), ("a", "a", 1)] :=
  ⟨rfl,
   share_messages_value_independent toyCrypto toyRnd "me"
     [("me", "me", 0), ("a", "a", 1)] [(kb, 1)] [(kb, 2)] rfl⟩

/-! ## Claim C6 — chunk layout and parse round trip -/

theorem usize64_ofNat (m : Nat) (h : m < 2^64) : usize64 (m : Int) = m := by
  unfold usize64
  omega

/-- C6. For every (recipient, key) pair the plaintext chunk assembled at
share emission is exactly 245 bytes: bytes 0..8 the key length as big-endian
signed 64-bit, bytes 8..16 the share as big-endian signed 64-bit, bytes
16..16+L the key, the remainder zero; and the receiver's parse of such a
chunk recovers exactly the same key and share. -/
theorem chunk_layout_roundtrip (key : List Nat) (share : Int)
    (hk : key.length ≤ 229) (hutf : validUtf8 key = true)
    (hlo : -2^63 ≤ share) (hhi : share < 2^63) :
    (mkChunk key share).length = 245
    ∧ (mkChunk key share).take 8 = toBe64 (key.length : Int)
    ∧ ((mkChunk key share).drop 8).take 8 = toBe64 share
    ∧ ((mkChunk key share).drop 16).take key.length = key
    ∧ (mkChunk key share).drop (16 + key.length) = List.replicate (229 - key.length) 0
    ∧ parseChunk (mkChunk key share) = .ok (key, share) := by
  have hlen : (mkChunk key share).length = 245 := by
    simp only [mkChunk, List.length_append, toBe64_length, List.length_replicate,
      MAX_MSG_SIZE_BYTES]
    omega
  have h16 : (toBe64 (key.length : Int) ++ toBe64 share).length = 16 := by
    simp [toBe64_length]
  have hpad : MAX_MSG_SIZE_BYTES - 16 - key.length = 229 - key.length := by
    unfold MAX_MSG_SIZE_BYTES
    omega
  have hassocR : mkChunk key share
      = toBe64 (key.length : Int)
          ++ (toBe64 share ++ (key ++ List.replicate (MAX_MSG_SIZE_BYTES - 16 - key.length) 0)) := by
    simp [mkChunk, List.append_assoc]
  have htake8 : (mkChunk key share).take 8 = toBe64 (key.length : Int) := by
    rw [hassocR, List.take_left' (toBe64_length _)]
  have hdrop8 : (mkChunk key share).drop 8
      = toBe64 share ++ (key ++ List.replicate (MAX_MSG_SIZE_BYTES - 16 - key.length) 0) := by
    rw [hassocR, List.drop_left' (toBe64_length _)]
  have htake8' : ((mkChunk key share).drop 8).take 8 = toBe64 share := by
    rw [hdrop8, List.take_left' (toBe64_length _)]
  have hassoc : mkChunk key share
      = (toBe64 (key.length : Int) ++ toBe64 share)
          ++ (key ++ List.replicate (MAX_MSG_SIZE_BYTES - 16 - key.length) 0) := by
    simp [mkChunk, List.append_assoc]
  have hdrop16 : (mkChunk key share).drop 16
      = key ++ List.replicate (MAX_MSG_SIZE_BYTES - 16 - key.length) 0 := by
    rw [hassoc, List.drop_left' h16]
  have htakekey : ((mkChunk key share).drop 16).take key.length = key := by
    rw [hdrop16, List.take_left]
  have hdroppad : (mkChunk key share).drop (16 + key.length)
      = List.replicate (229 - key.length) 0 := by
    have h2 : mkChunk key share
        = ((toBe64 (key.length : Int) ++ toBe64 share) ++ key)
            ++ List.replicate (MAX_MSG_SIZE_BYTES - 16 - key.length) 0 := by
      simp [mkChunk, List.append_assoc]
    rw [h2, List.drop_left' (by simp only [List.length_append, toBe64_length]), hpad]
  have hfield : fromBe64 ((mkChunk key share).take 8) = (key.length : Int) := by
    rw [htake8]
    exact fromBe64_toBe64 _ (by omega) (by omega)
  have husize : usize64 (fromBe64 ((mkChunk key share).take 8)) = key.length := by
    rw [hfield]
    exact usize64_ofNat _ (by omega)
  refine ⟨hlen, htake8, htake8', htakekey, hdroppad, ?_⟩
  simp only [parseChunk]
  rw [hlen, husize, htakekey, hutf]
  rw [if_neg (by norm_num), if_neg (by norm_num), if_neg (by omega), if_pos rfl]
  rw [htake8', fromBe64_toBe64 share hlo hhi]

/-- Witness for C6 at the one-byte key `"k"` and share `5`. -/
theorem chunk_layout_roundtrip_witness :
    kb.length ≤ 229 ∧ validUtf8 kb = true
    ∧ parseChunk (mkChunk kb 5) = .ok (kb, 5) :=
  ⟨by decide, by decide,
   (chunk_layout_roundtrip kb 5 (by decide) (by decide) (by decide) (by decide)).2.2.2.2.2⟩

/-! ## Claim C5 — frame exactness -/

theorem buildBlob_length (c : Crypto) (rnd : String → List Nat → Int) (pk : String) :
    ∀ (input : List (List Nat × Int)) (sh : List (List Nat × Int)) (blob : List Nat),
      buildBlob c rnd pk input = .ok (sh, blob) → blob.length = 512 * input.length := by
  intro input
  induction input with
  | nil =>
    intro sh blob h
    simp only [buildBlob, Except.ok.injEq, Prod.mk.injEq] at h
    simp [← h.2]
  | cons kv rest ih =>
    intro sh blob h
    obtain ⟨key, v⟩ := kv
    simp only [buildBlob] at h
    split at h
    · simp at h
    · split at h
      · simp at h
      · rename_i enc henc
        split at h
        · simp at h
        · rename_i hlenc
          split at h
          · simp at h
          · rename_i hlsig
            split at h
            · simp at h
            · rename_i shares blob' hrest
              simp only [Except.ok.injEq, Prod.mk.injEq] at h
              have hb := ih shares blob' hrest
              rw [← h.2]
              simp only [List.length_append, List.length_cons]
              omega

theorem buildBlob_total (c : Crypto) (rnd : String → List Nat → Int) (pk : String)
    (hgc : GoodCrypto c) :
    ∀ input : List (List Nat × Int), (∀ kv ∈ input, kv.1.length ≤ 229) →
      ∃ sh blob, buildBlob c rnd pk input = .ok (sh, blob) := by
  intro input
  induction input with
  | nil => exact fun _ => ⟨[], [], rfl⟩
  | cons kv rest ih =>
    intro hk
    obtain ⟨key, v⟩ := kv
    obtain ⟨sh', blob', hrest⟩ := ih (fun x hx => hk x (by simp [hx]))
    obtain ⟨e, he, hel⟩ := hgc.1 pk (mkChunk key (rnd pk key))
    have hkey : ¬(MAX_MSG_SIZE_BYTES - 16 < key.length) := by
      have h229 : key.length ≤ 229 := hk (key, v) (by simp)
      simp only [MAX_MSG_SIZE_BYTES]
      omega
    refine ⟨alInsert key (rnd pk key) sh', e ++ c.sign e ++ blob', ?_⟩
    simp only [buildBlob, if_neg hkey, he, hel, hgc.2 e, hrest]
    simp

theorem processBlob_misaligned (c : Crypto) (sender : String)
    (ps : List (List Nat × Int)) (blob : List Nat)
    (h : blob.length % 512 ≠ 0) : processBlob c sender ps blob = .error .panic := by
  unfold processBlob
  rw [if_pos h]

/-- C5. Every emitted share blob is exactly `512 * |keys|` bytes long
(first conjunct); under the RSA-2048 size contract the emission assertions
never fail for key sets within the 229-byte limit — assembly always reaches
`ok` (second conjunct); and a receiver whose retained blob length is not a
multiple of 512 aborts — for every crypto instantiation, hence before any
record is verified, decrypted or parsed (third conjunct). -/
theorem share_blob_framing :
    (∀ (c : Crypto) (rnd : String → List Nat → Int) (pk : String)
        (input sh : List (List Nat × Int)) (blob : List Nat),
        buildBlob c rnd pk input = .ok (sh, blob) → blob.length = 512 * input.length)
    ∧ (∀ (c : Crypto) (rnd : String → List Nat → Int) (pk : String)
        (input : List (List Nat × Int)), GoodCrypto c →
        (∀ kv ∈ input, kv.1.length ≤ 229) →
          ∃ sh blob, buildBlob c rnd pk input = .ok (sh, blob))
    ∧ (∀ (c : Crypto) (sender : String) (ps : List (List Nat × Int)) (blob : List Nat),
        blob.length % 512 ≠ 0 → processBlob c sender ps blob = .error .panic) :=
  ⟨fun c rnd pk input sh blob h => buildBlob_length c rnd pk input sh blob h,
   fun c rnd pk input hgc hk => buildBlob_total c rnd pk hgc input hk,
   fun c sender ps blob h => processBlob_misaligned c sender ps blob h⟩

set_option maxRecDepth 10000 in
/-- Witness for C5: a one-key blob of exactly 512 bytes, and a 1-byte blob
that panics on the alignment assert. -/
theorem share_blob_framing_witness :
    GoodCrypto toyCrypto
    ∧ buildBlob toyCrypto toyRnd "p" [(kb, 5)]
        = .ok ([(kb, 0)], (mkChunk kb 0 ++ List.replicate 11 0) ++ List.replicate 256 0)
    ∧ ((mkChunk kb 0 ++ List.replicate 11 0) ++ List.replicate 256 0).length = 512 * 1
    ∧ processBlob toyCrypto "s" [] [0] = .error .panic :=
  ⟨toyCrypto_good,
   by rfl,
   share_blob_framing.1 toyCrypto toyRnd "p" [(kb, 5)] [(kb, 0)]
     ((mkChunk kb 0 ++ List.replicate 11 0) ++ List.replicate 256 0) (by rfl),
   share_blob_framing.2.2 toyCrypto "s" [] [0] (by decide)⟩

/-! ## Claim C9 — fatal key-size and parse violations -/

theorem fromBe64_neg_usize (bs : List Nat) (h : fromBe64 bs < 0) :
    2^63 ≤ usize64 (fromBe64 bs) := by
  simp only [fromBe64, usize64] at h ⊢
  by_cases hu : (bs.foldl (fun acc b => acc * 256 + b) 0) < 2^63
  · rw [if_pos hu] at h ⊢
    omega
  · rw [if_neg hu] at h ⊢
    omega

/-- C9. Key-size violations are fatal.  (1) A key longer than 229 bytes
at the head of the input aborts share assembly with exit 1 for *every* crypto
instantiation — in particular before that key's chunk is encrypted; (2) under
the RSA size contract, share assembly aborts with exit 1 whenever *any* input
key is longer than 229 bytes; (3) parsing a 245-byte decrypted chunk whose
key-length field exceeds 229 exits 1; (4) so does a negative key-length
field (reinterpreted `as usize` it is at least `2^63`); (5) so do key bytes
that are not valid UTF-8; (6) a validly parsed key that is not among the
node's own input keys aborts record processing with exit 1. -/
theorem key_violations_fatal :
    (∀ (c : Crypto) (rnd : String → List Nat → Int) (pk : String)
        (key : List Nat) (v : Int) (rest : List (List Nat × Int)),
        229 < key.length →
          buildBlob c rnd pk ((key, v) :: rest) = .error (.exit 1))
    ∧ (∀ (c : Crypto) (rnd : String → List Nat → Int) (pk : String)
        (input : List (List Nat × Int)), GoodCrypto c →
        (∃ kv ∈ input, 229 < kv.1.length) →
          buildBlob c rnd pk input = .error (.exit 1))
    ∧ (∀ chunk : List Nat, chunk.length = 245 →
        229 < usize64 (fromBe64 (chunk.take 8)) →
          parseChunk chunk = .error (.exit 1))
    ∧ (∀ chunk : List Nat, chunk.length = 245 →
        fromBe64 (chunk.take 8) < 0 →
          parseChunk chunk = .error (.exit 1))
    ∧ (∀ chunk : List Nat, chunk.length = 245 →
        usize64 (fromBe64 (chunk.take 8)) ≤ 229 →
        validUtf8 ((chunk.drop 16).take (usize64 (fromBe64 (chunk.take 8)))) = false →
          parseChunk chunk = .error (.exit 1))
    ∧ (∀ (c : Crypto) (sender : String) (ps : List (List Nat × Int))
        (blob chunk keyBytes : List Nat) (share : Int),
        512 ≤ blob.length →
        c.verify sender (blob.take 256) ((blob.drop 256).take 256) = true →
        c.decrypt (blob.take 256) = some chunk →
        parseChunk chunk = .ok (keyBytes, share) →
        alLookup keyBytes ps = none →
          processRecords c sender ps blob = .error (.exit 1)) := by
  have hkl : ∀ chunk : List Nat, chunk.length = 245 →
      229 < usize64 (fromBe64 (chunk.take 8)) →
        parseChunk chunk = .error (.exit 1) := by
    intro chunk hlen hbig
    simp only [parseChunk]
    rw [if_neg (by omega), if_neg (by omega), if_pos (by omega)]
  refine ⟨?_, ?_, hkl, ?_, ?_, ?_⟩
  · intro c rnd pk key v rest hbig
    have h : MAX_MSG_SIZE_BYTES - 16 < key.length := by
      simp only [MAX_MSG_SIZE_BYTES]
      omega
    simp only [buildBlob, if_pos h]
  · intro c rnd pk input hgc hex
    induction input with
    | nil => simp at hex
    | cons kv rest ih =>
      obtain ⟨key, v⟩ := kv
      by_cases hbig : 229 < key.length
      · have h : MAX_MSG_SIZE_BYTES - 16 < key.length := by
          simp only [MAX_MSG_SIZE_BYTES]
          omega
        simp only [buildBlob, if_pos h]
      · have hk : ¬(MAX_MSG_SIZE_BYTES - 16 < key.length) := by
          simp only [MAX_MSG_SIZE_BYTES]
          omega
        have hex' : ∃ kv ∈ rest, 229 < kv.1.length := by
          rcases hex with ⟨kv', hmem, hlen'⟩
          rcases List.mem_cons.mp hmem with heq | hmem'
          · exfalso
            apply hbig
            have : kv'.1.length = key.length := by rw [heq]
            omega
          · exact ⟨kv', hmem', hlen'⟩
        obtain ⟨e, he, hel⟩ := hgc.1 pk (mkChunk key (rnd pk key))
        simp only [buildBlob, if_neg hk, he, hel, hgc.2 e, ih hex']
        simp
  · intro chunk hlen hneg
    refine hkl chunk hlen ?_
    have := fromBe64_neg_usize (chunk.take 8) hneg
    omega
  · intro chunk hlen hsmall hbad
    simp only [parseChunk]
    rw [if_neg (by omega), if_neg (by omega), if_neg (by omega), if_neg (by simp [hbad])]
  · intro c sender ps blob chunk keyBytes share h512 hver hdec hparse hlook
    unfold processRecords
    have hc : (blob.length + 511) / 512 = ((blob.length + 511) / 512 - 1) + 1 := by omega
    rw [hc]
    have hn512 : ¬(blob.length < 512) := by omega
    simp only [processRecordsGo, if_neg hn512, hver, hdec, hparse, hlook]
    simp

set_option maxRecDepth 10000 in
/-- Witness for C9: an over-long key aborts assembly (also with any key
found mid-list), and concrete chunks with an over-long, negative, or
non-UTF-8 key field — and a record with an unknown key — abort parsing. -/
theorem key_violations_fatal_witness :
    buildBlob toyCrypto toyRnd "p" [(List.replicate 230 97, 1)] = .error (.exit 1)
    ∧ buildBlob toyCrypto toyRnd "p" [(kb, 2), (List.replicate 230 97, 1)] = .error (.exit 1)
    ∧ parseChunk (toBe64 300 ++ List.replicate 237 0) = .error (.exit 1)
    ∧ parseChunk (toBe64 (-1) ++ List.replicate 237 0) = .error (.exit 1)
    ∧ parseChunk (toBe64 1 ++ toBe64 0 ++ [255] ++ List.replicate 228 0) = .error (.exit 1)
    ∧ processRecords toyCrypto "s" [] blobA = .error (.exit 1) :=
  ⟨key_violations_fatal.1 toyCrypto toyRnd "p" (List.replicate 230 97) 1 [] (by decide),
   key_violations_fatal.2.1 toyCrypto toyRnd "p" [(kb, 2), (List.replicate 230 97, 1)]
     toyCrypto_good ⟨(List.replicate 230 97, 1), by decide, by decide⟩,
   key_violations_fatal.2.2.1 (toBe64 300 ++ List.replicate 237 0) (by decide) (by decide),
   key_violations_fatal.2.2.2.1 (toBe64 (-1) ++ List.replicate 237 0) (by decide) (by decide),
   key_violations_fatal.2.2.2.2.1 (toBe64 1 ++ toBe64 0 ++ [255] ++ List.replicate 228 0)
     (by decide) (by decide) (by decide),
   key_violations_fatal.2.2.2.2.2 toyCrypto "s" [] blobA (mkChunk kb 11) kb 11
     (by decide) (by rfl) (by rfl) (by rfl) (by rfl)⟩

/-! ## Claim C3 — out-of-phase messages -/

/-- The lobby-phase messages (`Join`, `Participants`, `LobbyNowClosed`). -/
def isLobbyMsg : Msg → Bool
  | .Join _ _ => true
  | .Participants _ => true
  | .LobbyNowClosed => true
  | _ => false

/-- C3 (counterexample). The claim says a message delivered in a phase it
does not belong to is only logged and the process keeps running; but a `Sum`
delivered during `WaitingForParticipants` makes the node exit with code 1
(main.rs lines 534–537). -/
theorem out_of_phase_sum_exits :
    (stepEvent nodeWaiting (Event.Msg (Msg.Sum "x" []) 7)).outcome = Outcome.exit 1 := by
  decide

/-- C3 (amended). `Join`, `Participants` and `LobbyNowClosed` delivered
during `SendingShares` are only logged — state unchanged, nothing published,
the loop continues; but `Sum` and `Result` delivered during
`WaitingForParticipants` exit the process with code 1. -/
theorem out_of_phase_handling (n : Node) :
    (∀ (m : Msg) (pid : Nat), n.phase = Phase.SendingShares → isLobbyMsg m = true →
        stepEvent n (Event.Msg m pid) = ⟨n, [], Outcome.ok⟩)
    ∧ (∀ (pk : String) (s : List (List Nat × Int)) (pid : Nat),
        n.phase = Phase.WaitingForParticipants →
          (stepEvent n (Event.Msg (Msg.Sum pk s) pid)).outcome = Outcome.exit 1)
    ∧ (∀ (r : List (List Nat × Int)) (pid : Nat),
        n.phase = Phase.WaitingForParticipants →
          (stepEvent n (Event.Msg (Msg.Result r) pid)).outcome = Outcome.exit 1) := by
  refine ⟨?_, ?_, ?_⟩
  · intro m pid hp hm
    cases m with
    | Join a b => simp [stepEvent, retainShare, handleEvent, hp]
    | Participants l => simp [stepEvent, retainShare, handleEvent, hp]
    | LobbyNowClosed => simp [stepEvent, retainShare, handleEvent, hp]
    | Quit a b => exact absurd hm (by simp [isLobbyMsg])
    | Share a b d => exact absurd hm (by simp [isLobbyMsg])
    | Sum a b => exact absurd hm (by simp [isLobbyMsg])
    | Result r => exact absurd hm (by simp [isLobbyMsg])
  · intro pk s pid hp
    simp [stepEvent, retainShare, handleEvent, hp]
  · intro r pid hp
    simp [stepEvent, retainShare, handleEvent, hp]

/-- Witness for C3 (amended): a `Join` arriving at a `SendingShares` node is
dropped, a `Sum` arriving at a lobby node exits 1. -/
theorem out_of_phase_handling_witness :
    stepEvent nodeC4 (Event.Msg (Msg.Join "x" "y") 3) = ⟨nodeC4, [], Outcome.ok⟩
    ∧ (stepEvent nodeWaiting (Event.Msg (Msg.Sum "z" []) 8)).outcome = Outcome.exit 1 :=
  ⟨(out_of_phase_handling nodeC4).1 (Msg.Join "x" "y") 3 rfl rfl,
   (out_of_phase_handling nodeWaiting).2.1 "z" [] 8 rfl⟩

/-! ## Claim C7 — minimum-size guard -/

/-- C7. No benchmark starts with fewer than 3 participants: a leader
receiving a stdin line in the lobby with fewer than 3 participants stays in
`WaitingForParticipants` with nothing broadcast (first conjunct); a follower
receiving `LobbyNowClosed` in the lobby with fewer than 3 participants exits
with code 1 (second conjunct). -/
theorem minimum_size_guard (n : Node) :
    (∀ line : String, n.phase = Phase.WaitingForParticipants → n.isLeader = true →
        n.participants.length < 3 →
          stepEvent n (Event.StdIn line) = ⟨n, [], Outcome.ok⟩)
    ∧ (∀ pid : Nat, n.phase = Phase.WaitingForParticipants → n.isLeader = false →
        n.participants.length < 3 →
          (stepEvent n (Event.Msg Msg.LobbyNowClosed pid)).outcome = Outcome.exit 1) := by
  constructor
  · intro line hp hl h3
    simp [stepEvent, handleEvent, hp, hl, h3]
  · intro pid hp hl h3
    simp [stepEvent, retainShare, handleEvent, hp, hl, h3]

/-- Witness for C7: the one-participant leader lobby and the two-participant
follower lobby. -/
theorem minimum_size_guard_witness :
    stepEvent nodeWaiting (Event.StdIn "") = ⟨nodeWaiting, [], Outcome.ok⟩
    ∧ (stepEvent nodeFollower (Event.Msg Msg.LobbyNowClosed 4)).outcome = Outcome.exit 1 :=
  ⟨(minimum_size_guard nodeWaiting).1 "" rfl rfl (by decide),
   (minimum_size_guard nodeFollower).2 4 rfl rfl (by decide)⟩

/-! ## Claim C8 — the roster is frozen after the lobby -/

theorem retainShare_phase (n : Node) (m : Msg) : (retainShare n m).phase = n.phase := by
  cases m <;> first
    | rfl
    | (simp only [retainShare]; split <;> rfl)

theorem retainShare_participants (n : Node) (m : Msg) :
    (retainShare n m).participants = n.participants := by
  cases m <;> first
    | rfl
    | (simp only [retainShare]; split <;> rfl)

theorem handleEvent_participants_frozen (n : Node) (ev : Event)
    (h : n.phase = Phase.ConfirmingParticipants ∨ n.phase = Phase.SendingShares) :
    (handleEvent n ev).node.participants = n.participants := by
  cases ev with
  | Upnp u =>
    rcases h with hp | hp <;> cases u <;> simp [handleEvent, hp]
  | StdIn line =>
    rcases h with hp | hp <;> simp [handleEvent, hp] <;> split_ifs <;> rfl
  | Msg m pid =>
    rcases h with hp | hp <;> cases m <;> simp [handleEvent, hp] <;> split_ifs <;> rfl
  | ConnectionClosed pid =>
    rcases h with hp | hp <;> simp [handleEvent, hp] <;> split_ifs <;> rfl

/-- C8. Once the phase is past `WaitingForParticipants` the roster is
frozen: no handled event — stdin line, any message variant (including `Join`
and `Participants`), or transport event — changes `participants` in the
`ConfirmingParticipants` or `SendingShares` phase. -/
theorem roster_frozen_after_lobby (n : Node) (ev : Event)
    (h : n.phase = Phase.ConfirmingParticipants ∨ n.phase = Phase.SendingShares) :
    (stepEvent n ev).node.participants = n.participants := by
  cases ev with
  | Upnp u =>
    simp only [stepEvent]
    exact handleEvent_participants_frozen n (Event.Upnp u) h
  | StdIn line =>
    simp only [stepEvent]
    exact handleEvent_participants_frozen n (Event.StdIn line) h
  | ConnectionClosed pid =>
    simp only [stepEvent]
    exact handleEvent_participants_frozen n (Event.ConnectionClosed pid) h
  | Msg m pid =>
    simp only [stepEvent]
    rw [handleEvent_participants_frozen (retainShare n m) (Event.Msg m pid)
      (by rw [retainShare_phase]; exact h)]
    exact retainShare_participants n m

/-- Witness for C8: a `Participants` re-broadcast reaching a node in
`SendingShares` leaves the roster unchanged. -/
theorem roster_frozen_after_lobby_witness :
    (stepEvent nodeC4 (Event.Msg (Msg.Participants []) 3)).node.participants
      = nodeC4.participants :=
  roster_frozen_after_lobby nodeC4 (Event.Msg (Msg.Participants []) 3) (Or.inr rfl)

/-! ## Claim C10 — Step B share retention in every phase -/

theorem stepEvent_share_node (n : Node) (f t : String) (b : List Nat) (pid : Nat) :
    (stepEvent n (Event.Msg (Msg.Share f t b) pid)).node = retainShare n (Msg.Share f t b) := by
  cases hp : n.phase <;>
    simp [stepEvent, handleEvent, retainShare_phase, hp]

/-- C10. Every inbound `Share` whose `to` is the local key and whose
`from` is in the roster is stored into `received_shares[from]` — in every
phase, before the phase dispatch (which never touches it) — and a duplicate
from the same sender overwrites the stored blob; a `Share` whose `to` is not
the local key or whose `from` is unknown leaves `received_shares` unchanged. -/
theorem share_retention (n : Node) (f t : String) (b : List Nat) (pid : Nat) :
    (t = n.pubKey → alContains f n.participants = true →
        (stepEvent n (Event.Msg (Msg.Share f t b) pid)).node.receivedShares
            = alInsert f b n.receivedShares
        ∧ alLookup f (alInsert f b n.receivedShares) = some b)
    ∧ ((t ≠ n.pubKey ∨ alContains f n.participants = false) →
        (stepEvent n (Event.Msg (Msg.Share f t b) pid)).node.receivedShares
          = n.receivedShares) := by
  constructor
  · intro ht hc
    rw [stepEvent_share_node]
    constructor
    · simp only [retainShare]
      rw [if_pos ⟨ht, hc⟩]
    · exact alLookup_insert f b n.receivedShares
  · intro hor
    rw [stepEvent_share_node]
    have hneg : ¬(t = n.pubKey ∧ alContains f n.participants = true) := by
      intro hand
      rcases hor with h | h
      · exact h hand.1
      · rw [hand.2] at h
        exact absurd h (by simp)
    simp only [retainShare]
    rw [if_neg hneg]

/-- Witness for C10: a matching `Share` is retained (and overwrites), a
mismatched one is dropped — on the same concrete node. -/
theorem share_retention_witness :
    ((stepEvent nodeC4 (Event.Msg (Msg.Share "a" "me" [1, 2]) 9)).node.receivedShares
        = alInsert "a" [1, 2] nodeC4.receivedShares)
    ∧ ((stepEvent nodeC4 (Event.Msg (Msg.Share "zz" "me" [1]) 9)).node.receivedShares
        = nodeC4.receivedShares) :=
  ⟨((share_retention nodeC4 "a" "me" [1, 2] 9).1 rfl (by decide)).1,
   (share_retention nodeC4 "zz" "me" [1] 9).2 (Or.inr (by decide))⟩

/-! ## Claim C4 — which housekeeping steps are guarded -/

/-- Tests whether a message is a `Share`. -/
def isShareMsg : Msg → Bool
  | .Share _ _ _ => true
  | _ => false

theorem stepA_result (c : Crypto) (rnd : String → List Nat → Int) (m : Node) :
    (stepA c rnd m).node.result = m.result := by
  unfold stepA
  cases emitAll c rnd m.pubKey m.input m.participants with
  | error o => rfl
  | ok pr =>
    obtain ⟨sent, msgs⟩ := pr
    rfl

theorem stepC_preserves (c : Crypto) (m : Node) :
    (stepC c m).node.sentShares = m.sentShares
    ∧ (stepC c m).node.receivedShares = m.receivedShares
    ∧ (stepC c m).node.participants = m.participants
    ∧ (stepC c m).node.result = m.result := by
  unfold stepC
  cases h1 : maskedSums m.input [] (sentSums m.sentShares) with
  | error o => simp [h1]
  | ok ps0 =>
    cases h2 : processAll c ps0 m.receivedShares with
    | error o => simp [h1, h2]
    | ok ps =>
      cases hl : m.isLeader <;> simp [h1, h2, hl]

theorem stepC_sent (c : Crypto) (m : Node) :
    (stepC c m).sent = [] ∨ ∃ ps, (stepC c m).sent = [Msg.Sum m.pubKey ps] := by
  unfold stepC
  cases h1 : maskedSums m.input [] (sentSums m.sentShares) with
  | error o => left; simp [h1]
  | ok ps0 =>
    cases h2 : processAll c ps0 m.receivedShares with
    | error o => left; simp [h1, h2]
    | ok ps => exact Or.inr ⟨ps, by simp [h1, h2]⟩

theorem stepD_preserves (m : Node) :
    (stepD m).sent = [Msg.Result (resultTotals m.sums)]
    ∧ (stepD m).node.sentShares = m.sentShares
    ∧ (stepD m).node.receivedShares = m.receivedShares
    ∧ (stepD m).node.participants = m.participants
    ∧ ∀ r, m.result = some r → (stepD m).node.result = some r := by
  unfold stepD
  refine ⟨rfl, ?_, ?_, ?_, ?_⟩
  · cases hres : m.result <;> simp [hres]
  · cases hres : m.result <;> simp [hres]
  · cases hres : m.result <;> simp [hres]
  · intro r hr
    simp [hr]

theorem housekeeping_result_stable (c : Crypto) (rnd : String → List Nat → Int)
    (n : Node) (r : List (List Nat × Int)) (hr : n.result = some r) :
    (housekeeping c rnd n).node.result = some r := by
  cases hph : n.phase with
  | WaitingForParticipants => simp [housekeeping, hph, hr]
  | ConfirmingParticipants =>
    by_cases hap : n.allPeersCount = 0 <;> simp [housekeeping, hph, hap, hr]
  | SendingShares =>
    by_cases hap : n.allPeersCount = 0
    · simp [housekeeping, hph, hap, hr]
    · simp only [housekeeping, hph, if_neg hap]
      by_cases hse : n.sentShares.isEmpty = true
      · rw [if_pos hse]
        have hres1 : (stepA c rnd n).node.result = some r := by
          rw [stepA_result]
          exact hr
        cases ho1 : (stepA c rnd n).outcome with
        | ok =>
          simp only [ho1]
          by_cases hrc : (stepA c rnd n).node.receivedShares.length
              = (stepA c rnd n).node.participants.length - 1
          · rw [if_pos hrc]
            have hres2 : (stepC c (stepA c rnd n).node).node.result = some r := by
              rw [(stepC_preserves c _).2.2.2]
              exact hres1
            cases ho2 : (stepC c (stepA c rnd n).node).outcome with
            | ok =>
              simp only [ho2]
              split
              · exact (stepD_preserves _).2.2.2.2 r hres2
              · exact hres2
            | exit k => simp only [ho2]; exact hres2
            | panic => simp only [ho2]; exact hres2
            | brk => simp only [ho2]; exact hres2
          · rw [if_neg hrc]
            simp only []
            split
            · exact (stepD_preserves _).2.2.2.2 r hres1
            · exact hres1
        | exit k => simp only [ho1]; exact hres1
        | panic => simp only [ho1]; exact hres1
        | brk => simp only [ho1]; exact hres1
      · rw [if_neg hse]
        simp only []
        by_cases hrc : n.receivedShares.length = n.participants.length - 1
        · rw [if_pos hrc]
          have hres2 : (stepC c n).node.result = some r := by
            rw [(stepC_preserves c _).2.2.2]
            exact hr
          cases ho2 : (stepC c n).outcome with
          | ok =>
            simp only [ho2]
            split
            · exact (stepD_preserves _).2.2.2.2 r hres2
            · exact hres2
          | exit k => simp only [ho2]; exact hres2
          | panic => simp only [ho2]; exact hres2
          | brk => simp only [ho2]; exact hres2
        · rw [if_neg hrc]
          simp only []
          split
          · exact (stepD_preserves _).2.2.2.2 r hr
          · exact hr

theorem housekeeping_after_emission (c : Crypto) (rnd : String → List Nat → Int)
    (n : Node) (hse : n.sentShares ≠ []) :
    (∀ f t b, Msg.Share f t b ∉ (housekeeping c rnd n).sent)
    ∧ (housekeeping c rnd n).node.sentShares = n.sentShares
    ∧ (housekeeping c rnd n).node.receivedShares = n.receivedShares
    ∧ (housekeeping c rnd n).node.participants = n.participants := by
  have hseb : ¬(n.sentShares.isEmpty = true) := by
    rw [List.isEmpty_iff]
    exact hse
  have hcs' : ∀ f t b, Msg.Share f t b ∉ (stepC c n).sent := by
    rcases stepC_sent c n with h | ⟨ps, h⟩ <;> simp [h]
  cases hph : n.phase with
  | WaitingForParticipants => simp [housekeeping, hph]
  | ConfirmingParticipants =>
    by_cases hap : n.allPeersCount = 0 <;> simp [housekeeping, hph, hap]
  | SendingShares =>
    by_cases hap : n.allPeersCount = 0
    · simp [housekeeping, hph, hap]
    · simp only [housekeeping, hph, if_neg hap, if_neg hseb]
      rcases stepC_preserves c n with ⟨hc1, hc2, hc3, _⟩
      by_cases hrc : n.receivedShares.length = n.participants.length - 1
      · rw [if_pos hrc]
        cases ho2 : (stepC c n).outcome with
        | ok =>
          simp only [ho2]
          split
          · exact ⟨fun f t b => by
                simp [List.mem_append, hcs' f t b, (stepD_preserves _).1],
              by rw [(stepD_preserves _).2.1]; exact hc1,
              by rw [(stepD_preserves _).2.2.1]; exact hc2,
              by rw [(stepD_preserves _).2.2.2.1]; exact hc3⟩
          · exact ⟨fun f t b => by simp [List.mem_append, hcs' f t b], hc1, hc2, hc3⟩
        | exit k =>
          simp only [ho2]
          exact ⟨fun f t b => by simp [List.mem_append, hcs' f t b], hc1, hc2, hc3⟩
        | panic =>
          simp only [ho2]
          exact ⟨fun f t b => by simp [List.mem_append, hcs' f t b], hc1, hc2, hc3⟩
        | brk =>
          simp only [ho2]
          exact ⟨fun f t b => by simp [List.mem_append, hcs' f t b], hc1, hc2, hc3⟩
      · rw [if_neg hrc]
        simp only []
        split
        · exact ⟨fun f t b => by simp [List.mem_append, (stepD_preserves _).1],
            by rw [(stepD_preserves _).2.1],
            by rw [(stepD_preserves _).2.2.1],
            by rw [(stepD_preserves _).2.2.2.1]⟩
        · exact ⟨fun f t b => by simp, rfl, rfl, rfl⟩

set_option maxRecDepth 40000 in
/-- C4 (counterexample). The claim says a node broadcasts its `Sum` at
most once per run; but Step C has no once-guard: on the concrete follower
`nodeC4`, whose `received_shares` table is full, housekeeping broadcasts
`Sum` and leaves the state exactly as it was (second conjunct), a subsequent
no-op event (`Quit` during `SendingShares`) also leaves it unchanged (third
conjunct), so the next loop iteration's housekeeping broadcasts the very
same `Sum` again (first conjunct applies verbatim). -/
theorem sum_rebroadcast_counterexample :
    (housekeeping toyCrypto toyRnd nodeC4).sent = [Msg.Sum "me" [(kb, 112)]]
    ∧ (housekeeping toyCrypto toyRnd nodeC4).node = nodeC4
    ∧ (stepEvent nodeC4 (Event.Msg (Msg.Quit 9 "x") 5)).node = nodeC4 := by
  refine ⟨by decide, by decide, by decide⟩

/-- C4 (amended). Step A is guarded by `sent_shares.is_empty()` and so
runs at most once per threshold crossing, and the leader's result is printed
and recorded at most once (guarded by `result.is_none()`); but Steps C and D
carry no once-guard: once `sent_shares` is non-empty, housekeeping broadcasts
no further `Share` and leaves `sent_shares`, `received_shares` and the roster
unchanged — so the Step C / Step D threshold conditions keep holding on later
iterations and their `Sum` / `Result` broadcasts are re-executed each time. -/
theorem housekeeping_guards (c : Crypto) (rnd : String → List Nat → Int) (n : Node) :
    (n.sentShares ≠ [] →
        (∀ f t b, Msg.Share f t b ∉ (housekeeping c rnd n).sent)
        ∧ (housekeeping c rnd n).node.sentShares = n.sentShares
        ∧ (housekeeping c rnd n).node.receivedShares = n.receivedShares
        ∧ (housekeeping c rnd n).node.participants = n.participants)
    ∧ (∀ r, n.result = some r → (housekeeping c rnd n).node.result = some r) :=
  ⟨fun hse => housekeeping_after_emission c rnd n hse,
   fun r hr => housekeeping_result_stable c rnd n r hr⟩

set_option maxRecDepth 40000 in
/-- Witness for C4 (amended) on the concrete follower `nodeC4`. -/
theorem housekeeping_guards_witness :
    nodeC4.sentShares ≠ []
    ∧ (housekeeping toyCrypto toyRnd nodeC4).node.sentShares = nodeC4.sentShares :=
  ⟨by decide, ((housekeeping_guards toyCrypto toyRnd nodeC4).1 (by decide)).2.1⟩
